import Mathlib

set_option linter.unusedVariables false

/-!
Verification of the TDLM utility module (`tdlm/utils.py`).

The development shallowly embeds the two core algorithms of the module:

* `unique_permutations` (multiset permutation sampler), embedded for the
  1-D input case as `uperms` together with the rejection-sampling loop
  `runPermLoop`.  The stream of candidate permutations produced by
  `np.random.permutation` is passed in explicitly as a list `proposals`;
  a call that returns is a run of the loop that has filled all `k` rows
  (`upermsComplete`).

* `insert_events` (non-overlapping event scheduler plus event injector),
  embedded as `insertEventsAux` / `insertEvents`.  The NumPy global RNG is
  modelled by an abstract implementation `RngImpl` over a state type; a
  concrete implementation instantiates the draws.  Sample values are
  modelled as exact rationals; integer arithmetic is exact (the Python code
  computes `nPerms` through a float division that is exact in the intended
  range, and the model uses the exact value).
-/

/-! ### Multiset permutation sampler (`unique_permutations`, utils.py lines 38-140) -/

/-- `np.unique(X)`: the distinct values of `X` in ascending order. -/
def sortedUniques (X : List ℤ) : List ℤ :=
  X.dedup.insertionSort (· ≤ ·)

/-- The canonical integer coding `x` of `X` (line 104):
`x = [uniques.index(i) for i in X]`. -/
def codeX (X : List ℤ) : List ℕ :=
  X.map (fun v => (sortedUniques X).indexOf v)

/-- The multiplicities of the distinct values (`return_counts=True`),
sorted ascending (line 106: `c = sorted(c)`). -/
def sortedCounts (X : List ℤ) : List ℕ :=
  ((sortedUniques X).map (fun u => X.count u)).insertionSort (· ≤ ·)

/-- Reduction of a machine integer into the signed 64-bit range
`[-2^63, 2^63)`, as NumPy int64 arithmetic wraps. -/
def wrap64 (z : ℤ) : ℤ :=
  (z + 2 ^ 63) % 2 ^ 64 - 2 ^ 63

/-- `np.prod` over an int64 array: the running product wraps at every
multiplication. -/
def prodInt64 (l : List ℕ) : ℤ :=
  l.foldl (fun (acc : ℤ) (t : ℕ) => wrap64 (acc * (t : ℤ))) 1

/-- Number of distinct permutations (lines 107-108):
`nPerms = int(np.prod(np.arange(c[-1]+1, sum(c)+1)) / np.prod([factorial(x) for x in c[:-1]]))`.
Both products are `np.prod` over int64 data and wrap silently once a partial
product leaves the int64 range (for the all-distinct case this happens from
`n = 21` on).  (A factorial in `c[:-1]` too large for the int64 conversion
makes NumPy fall back to exact object arithmetic or raise, depending on the
version; every theorem below only meets denominators that are empty products
or products of ones, where all behaviours coincide.)  The final float64 true
division plus `int(...)` is modelled as
integer division, which agrees with the source at every input where this
file evaluates it (the divisions here are exact and their values fit the
float64 mantissa up to the power-of-two content of the numerator); a wrapped
negative `nPerms` makes the source crash when allocating `np.zeros([k, n])`,
so no returning call sees the `toNat` clamp. -/
def nPerms (X : List ℤ) : ℕ :=
  let c := sortedCounts X
  let cmax := c.getLastD 0
  ((prodInt64 (List.range' (cmax + 1) (c.sum - cmax))) /
    (prodInt64 (c.dropLast.map Nat.factorial))).toNat

/-- Lines 112-113: `if k is None or k > nPerms: k = nPerms`. -/
def kEffective (kReq : Option ℕ) (nP : ℕ) : ℕ :=
  match kReq with
  | none => nP
  | some k => if nP < k then nP else k

/-- `x[pInd]` for an index vector `pInd` over a coded sequence. -/
def applyPermN (x : List ℕ) (pInd : List ℕ) : List ℕ :=
  pInd.map (fun i => x.getD i 0)

/-- `X[pInd]` for an index vector `pInd` over the original values. -/
def applyPermZ (X : List ℤ) (pInd : List ℕ) : List ℤ :=
  pInd.map (fun i => X.getD i 0)

/-- State of the rejection-sampling loop (lines 116-129): the index matrix
`pInds`, the coded-permutation matrix `Perms`, and the counter `u`. -/
structure PermLoopState where
  pInds : List (List ℕ)
  permsC : List (List ℕ)
  u : ℕ
deriving DecidableEq

/-- Lines 116-119: both matrices are allocated as `k × n` zero matrices and
row 0 is set to the identity permutation resp. the coded input `x`. -/
def permLoopInit (k n : ℕ) (x : List ℕ) : PermLoopState :=
  ⟨(List.replicate k (List.replicate n 0)).set 0 (List.range n),
   (List.replicate k (List.replicate n 0)).set 0 x, 0⟩

/-- One candidate of the `while u < k - 1` loop (lines 123-129): the candidate
`pInd` is accepted iff its coded image is not already a row of the full
`Perms` matrix (zero padding rows included, as in the source). -/
def permLoopStep (k : ℕ) (x : List ℕ) (st : PermLoopState) (pInd : List ℕ) :
    PermLoopState :=
  if st.u < k - 1 then
    if applyPermN x pInd ∈ st.permsC then st
    else ⟨st.pInds.set (st.u + 1) pInd,
          st.permsC.set (st.u + 1) (applyPermN x pInd), st.u + 1⟩
  else st

/-- The rejection-sampling loop run on an explicit stream of candidate
permutations (the draws of `np.random.permutation`). -/
def runPermLoop (X : List ℤ) (kReq : Option ℕ) (proposals : List (List ℕ)) :
    PermLoopState :=
  proposals.foldl (permLoopStep (kEffective kReq (nPerms X)) (codeX X))
    (permLoopInit (kEffective kReq (nPerms X)) X.length (codeX X))

/-- A call that returns: the loop has left the `while` with `u = k - 1`. -/
abbrev upermsComplete (X : List ℤ) (kReq : Option ℕ)
    (proposals : List (List ℕ)) : Prop :=
  (runPermLoop X kReq proposals).u = kEffective kReq (nPerms X) - 1

/-- Lines 132-135 (vector case): `Perms = repeat(atleast_2d(X), k, 0)` and
rows `1..k-1` are overwritten with `X[pInds[n, :]]`. -/
def buildPermsOutVec (X : List ℤ) (pInds : List (List ℕ)) (k : ℕ) :
    List (List ℤ) :=
  (List.range' 1 (k - 1)).foldl
    (fun acc r => acc.set r (applyPermZ X (pInds.getD r [])))
    (List.replicate k X)

/-- Lines 136-139 (matrix case), modelled as the list of the `k` trailing-axis
slices: `Perms[:, :, n] = X[pInds[n, :], :]` for `n = 1..k-1`. -/
def buildPermsOutMat (X : List (List ℤ)) (pInds : List (List ℕ)) (k : ℕ) :
    List (List (List ℤ)) :=
  (List.range' 1 (k - 1)).foldl
    (fun acc r => acc.set r ((pInds.getD r []).map (fun i => X.getD i [])))
    (List.replicate k X)

/-- `unique_permutations` for a 1-D input: returns `(nPerms, pInds, Perms)`. -/
def uperms (X : List ℤ) (kReq : Option ℕ) (proposals : List (List ℕ)) :
    ℕ × List (List ℕ) × List (List ℤ) :=
  let st := runPermLoop X kReq proposals
  (nPerms X, st.pInds, buildPermsOutVec X st.pInds (kEffective kReq (nPerms X)))

/-! ### Helper lemmas about `nPerms` -/

/-- Product-of-ranges cancellation: `a! * prod(arange(a+1, a+b+1)) = (a+b)!`. -/
theorem range'_prod_mul_factorial (b : ℕ) :
    ∀ a : ℕ, (List.range' (a + 1) b).prod * a.factorial = (a + b).factorial := by
  induction b with
  | zero => intro a; simp
  | succ m ih =>
    intro a
    rw [List.range'_succ, List.prod_cons]
    have h1 : (a + 1) * (List.range' (a + 1 + 1) m).prod * a.factorial
        = (List.range' ((a + 1) + 1) m).prod * ((a + 1) * a.factorial) := by ring
    calc ((a + 1) * (List.range' (a + 1 + 1) m).prod) * a.factorial
        = (List.range' ((a + 1) + 1) m).prod * ((a + 1) * a.factorial) := h1
      _ = (List.range' ((a + 1) + 1) m).prod * (a + 1).factorial := by
          rw [Nat.factorial_succ]
      _ = ((a + 1) + m).factorial := ih (a + 1)
      _ = (a + (m + 1)).factorial := by ring_nf

theorem getLastD_replicate (a d : α) : ∀ m : ℕ,
    (List.replicate (m + 1) a).getLastD d = a := by
  intro m
  induction m generalizing d with
  | zero => rfl
  | succ i ih =>
    rw [List.replicate_succ, List.getLastD_cons]
    exact ih a

theorem dedup_replicate (a : ℤ) : ∀ n : ℕ,
    (List.replicate (n + 1) a).dedup = [a] := by
  intro n
  induction n with
  | zero => rfl
  | succ m ih =>
    rw [List.replicate_succ, List.dedup_cons_of_mem (by simp)]
    exact ih

theorem insertionSort_singleton (a : ℤ) :
    List.insertionSort (· ≤ ·) [a] = [a] := rfl

theorem insertionSort_nat_singleton (a : ℕ) :
    List.insertionSort (· ≤ ·) [a] = [a] := rfl

/-- Sorting a list all of whose elements are equal returns it unchanged. -/
theorem insertionSort_replicate (n : ℕ) (a : ℕ) :
    List.insertionSort (· ≤ ·) (List.replicate n a) = List.replicate n a := by
  have hperm := List.perm_insertionSort (· ≤ · : ℕ → ℕ → Prop) (List.replicate n a)
  refine List.eq_replicate_iff.2 ⟨?_, ?_⟩
  · rw [hperm.length_eq, List.length_replicate]
  · intro b hb
    exact List.eq_of_mem_replicate (hperm.mem_iff.1 hb)

/-- `wrap64` is the identity on values already inside the int64 range. -/
theorem wrap64_id (z : ℤ) (h0 : 0 ≤ z) (h1 : z < 2 ^ 63) : wrap64 z = z := by
  rw [wrap64, Int.emod_eq_of_lt (by omega) (by omega)]
  omega

/-- The wrapping product agrees with the exact product as long as the final
(and hence, for factors `≥ 1`, every partial) product stays below `2^63`. -/
theorem foldl_wrap64_eq (l : List ℕ) :
    ∀ acc : ℕ, (∀ t ∈ l, 1 ≤ t) → acc * l.prod < 2 ^ 63 →
      l.foldl (fun (a : ℤ) (t : ℕ) => wrap64 (a * (t : ℤ))) (acc : ℤ)
        = ((acc * l.prod : ℕ) : ℤ) := by
  induction l with
  | nil =>
    intro acc h1 h2
    simp
  | cons t rest ih =>
    intro acc h1 h2
    rw [List.foldl_cons]
    have hrest : 0 < rest.prod :=
      List.prod_pos (fun x hx => h1 x (List.mem_cons_of_mem t hx))
    have hbound : acc * t < 2 ^ 63 := by
      rw [List.prod_cons] at h2
      calc acc * t ≤ acc * t * rest.prod := Nat.le_mul_of_pos_right _ hrest
        _ = acc * (t * rest.prod) := by ring
        _ < 2 ^ 63 := h2
    have hcast : (acc : ℤ) * (t : ℤ) = ((acc * t : ℕ) : ℤ) := by push_cast; ring
    rw [hcast, wrap64_id _ (Int.natCast_nonneg _) (by exact_mod_cast hbound)]
    have h2' : acc * t * rest.prod < 2 ^ 63 := by
      rw [List.prod_cons] at h2
      calc acc * t * rest.prod = acc * (t * rest.prod) := by ring
        _ < 2 ^ 63 := h2
    rw [ih (acc * t) (fun s hs => h1 s (List.mem_cons_of_mem t hs)) h2']
    congr 1
    rw [List.prod_cons]
    ring

theorem prodInt64_eq (l : List ℕ) (h1 : ∀ t ∈ l, 1 ≤ t)
    (h2 : l.prod < 2 ^ 63) : prodInt64 l = (l.prod : ℤ) := by
  have := foldl_wrap64_eq l 1 h1 (by simpa using h2)
  simpa [prodInt64] using this

/-- `nPerms` on a constant list (all elements identical) is `1` (both
products are empty, so no wrapping can occur). -/
theorem nPerms_replicate (a : ℤ) (n : ℕ) (hn : 1 ≤ n) :
    nPerms (List.replicate n a) = 1 := by
  obtain ⟨m, rfl⟩ := Nat.exists_eq_add_of_le hn
  have hded : (List.replicate (1 + m) a).dedup = [a] := by
    have := dedup_replicate a m
    simpa [Nat.add_comm] using this
  have hcount : (List.replicate (1 + m) a).count a = 1 + m :=
    List.count_replicate_self a (1 + m)
  have hsu : sortedUniques (List.replicate (1 + m) a) = [a] := by
    rw [sortedUniques, hded, insertionSort_singleton]
  have hc : sortedCounts (List.replicate (1 + m) a) = [1 + m] := by
    rw [sortedCounts, hsu]
    simp only [List.map_cons, List.map_nil, hcount]
    exact insertionSort_nat_singleton (1 + m)
  rw [nPerms, hc]
  simp [prodInt64]

/-- `nPerms` on a duplicate-free list of at most 20 elements is the
factorial of its length: up to `20! < 2^63` the int64 product does not
wrap. -/
theorem nPerms_nodup (X : List ℤ) (hnd : X.Nodup) (hn : 1 ≤ X.length)
    (hb : X.length ≤ 20) :
    nPerms X = Nat.factorial X.length := by
  have hded : X.dedup = X := hnd.dedup
  have hperm : (sortedUniques X).Perm X := by
    rw [sortedUniques, hded]
    exact List.perm_insertionSort _ _
  have hlen : (sortedUniques X).length = X.length := hperm.length_eq
  have hcounts : (sortedUniques X).map (fun u => X.count u)
      = List.replicate X.length 1 := by
    refine List.eq_replicate_iff.2 ⟨by simpa using hlen, ?_⟩
    intro b hb
    obtain ⟨u, hu, rfl⟩ := List.mem_map.1 hb
    exact List.count_eq_one_of_mem hnd (hperm.mem_iff.1 hu)
  have hc : sortedCounts X = List.replicate X.length 1 := by
    rw [sortedCounts, hcounts, insertionSort_replicate]
  obtain ⟨m, hm⟩ := Nat.exists_eq_add_of_le hn
  rw [nPerms, hc]
  have hsum : (List.replicate X.length 1).sum = X.length := by simp
  have hlast : (List.replicate X.length 1).getLastD 0 = 1 := by
    rw [hm]
    simpa [Nat.add_comm] using getLastD_replicate 1 0 m
  have hdrop : (List.replicate X.length 1).dropLast
      = List.replicate (X.length - 1) 1 := by
    rw [hm]
    have : List.replicate (1 + m) (1 : ℕ) = List.replicate m 1 ++ [1] := by
      simpa [Nat.add_comm] using List.replicate_succ' m (1 : ℕ)
    rw [this, List.dropLast_concat]
    simp
  rw [hsum, hlast, hdrop]
  have hfacmap : (List.replicate (X.length - 1) 1).map Nat.factorial
      = List.replicate (X.length - 1) 1 := by
    simp [List.map_replicate]
  have hden : prodInt64 (List.replicate (X.length - 1) 1) = 1 := by
    rw [prodInt64_eq _ (fun t ht => by rw [List.eq_of_mem_replicate ht])
      (by simp)]
    simp
  have hnum_prod : (List.range' 2 (X.length - 1)).prod
      = X.length.factorial := by
    have := range'_prod_mul_factorial (X.length - 1) 1
    have h1 : (List.range' 2 (X.length - 1)).prod
        = (1 + (X.length - 1)).factorial := by
      simpa [Nat.factorial] using this
    rw [h1]
    congr 1
    omega
  have helem : ∀ t ∈ List.range' 2 (X.length - 1), 1 ≤ t := by
    intro t ht
    have := (List.mem_range'_1.1 ht).1
    omega
  have hsmall : (List.range' 2 (X.length - 1)).prod < 2 ^ 63 := by
    rw [hnum_prod]
    calc X.length.factorial ≤ Nat.factorial 20 := Nat.factorial_le hb
      _ < 2 ^ 63 := by decide
  have hnum : prodInt64 (List.range' 2 (X.length - 1))
      = (X.length.factorial : ℤ) := by
    rw [prodInt64_eq _ helem hsmall, hnum_prod]
  rw [hfacmap, hden, hnum]
  simp

/-! ### Helper lemmas about the rejection-sampling loop -/

theorem getD_set_ne {α} (l : List α) (i j : ℕ) (a : α) (d : α) (h : i ≠ j) :
    (l.set i a).getD j d = l.getD j d := by
  rw [List.getD_eq_getElem?_getD, List.getElem?_set_ne h, ← List.getD_eq_getElem?_getD]

theorem take_succ_set {α} (l : List α) (i : ℕ) (a : α) (h : i < l.length) :
    (l.set i a).take (i + 1) = l.take i ++ [a] := by
  rw [List.set_eq_take_append_cons_drop, if_pos h]
  have hA : (l.take i).length = i := by
    rw [List.length_take]; omega
  calc (l.take i ++ a :: l.drop (i + 1)).take (i + 1)
      = (l.take i ++ a :: l.drop (i + 1)).take ((l.take i).length + 1) := by rw [hA]
    _ = l.take i ++ (a :: l.drop (i + 1)).take 1 := List.take_append ..
    _ = l.take i ++ [a] := by simp

/-- Invariant of the rejection-sampling loop: matrices keep their `k` rows,
the counter stays below `k`, the filled prefix of the coded matrix is
duplicate-free, and row 0 holds the identity resp. the coded input. -/
def PermInv (k n : ℕ) (x : List ℕ) (st : PermLoopState) : Prop :=
  st.pInds.length = k ∧ st.permsC.length = k ∧ st.u + 1 ≤ k ∧
  (st.permsC.take (st.u + 1)).Nodup ∧
  st.pInds.getD 0 [] = List.range n ∧ st.permsC.getD 0 [] = x

theorem permInv_init (k n : ℕ) (x : List ℕ) (hk : 1 ≤ k) :
    PermInv k n x (permLoopInit k n x) := by
  obtain ⟨m, rfl⟩ := Nat.exists_eq_add_of_le hk
  refine ⟨by simp [permLoopInit], by simp [permLoopInit],
    by simp only [permLoopInit]; omega, ?_, ?_, ?_⟩
  · simp [permLoopInit, List.replicate_succ, Nat.add_comm 1 m]
  · simp [permLoopInit, List.replicate_succ, Nat.add_comm 1 m]
  · simp [permLoopInit, List.replicate_succ, Nat.add_comm 1 m]

theorem permInv_step (k n : ℕ) (x : List ℕ) (st : PermLoopState) (p : List ℕ)
    (h : PermInv k n x st) : PermInv k n x (permLoopStep k x st p) := by
  obtain ⟨h1, h2, h3, h4, h5, h6⟩ := h
  unfold permLoopStep
  split
  · split
    · exact ⟨h1, h2, h3, h4, h5, h6⟩
    · rename_i hu hmem
      have hlt : st.u + 1 < st.permsC.length := by omega
      refine ⟨by simp [h1], by simp [h2], by simp; omega, ?_, ?_, ?_⟩
      · rw [take_succ_set _ _ _ hlt]
        refine List.Nodup.append h4 (List.nodup_singleton _) ?_
        intro b hb hbmem
        rw [List.mem_singleton] at hbmem
        subst hbmem
        exact hmem (List.mem_of_mem_take hb)
      · rw [getD_set_ne _ _ _ _ _ (by omega)]
        exact h5
      · rw [getD_set_ne _ _ _ _ _ (by omega)]
        exact h6
  · exact ⟨h1, h2, h3, h4, h5, h6⟩

theorem permInv_foldl (k n : ℕ) (x : List ℕ) :
    ∀ (props : List (List ℕ)) (st : PermLoopState), PermInv k n x st →
      PermInv k n x (props.foldl (permLoopStep k x) st) := by
  intro props
  induction props with
  | nil => intro st h; exact h
  | cons p rest ih =>
    intro st h
    exact ih _ (permInv_step k n x st p h)

theorem runPermLoop_inv (X : List ℤ) (kReq : Option ℕ) (props : List (List ℕ))
    (hk : 1 ≤ kEffective kReq (nPerms X)) :
    PermInv (kEffective kReq (nPerms X)) X.length (codeX X)
      (runPermLoop X kReq props) :=
  permInv_foldl _ _ _ props _ (permInv_init _ _ _ hk)

theorem permLoopStep_lengths (k : ℕ) (x p : List ℕ) (st : PermLoopState) :
    (permLoopStep k x st p).pInds.length = st.pInds.length ∧
    (permLoopStep k x st p).permsC.length = st.permsC.length := by
  unfold permLoopStep
  split
  · split
    · exact ⟨rfl, rfl⟩
    · exact ⟨by simp, by simp⟩
  · exact ⟨rfl, rfl⟩

theorem runPermLoop_lengths (X : List ℤ) (kReq : Option ℕ)
    (props : List (List ℕ)) :
    (runPermLoop X kReq props).pInds.length = kEffective kReq (nPerms X) ∧
    (runPermLoop X kReq props).permsC.length = kEffective kReq (nPerms X) := by
  rw [runPermLoop]
  generalize hst : permLoopInit (kEffective kReq (nPerms X)) X.length (codeX X) = st
  have hbase : st.pInds.length = kEffective kReq (nPerms X) ∧
      st.permsC.length = kEffective kReq (nPerms X) := by
    rw [← hst]; simp [permLoopInit]
  clear hst
  induction props generalizing st with
  | nil => exact hbase
  | cons p rest ih =>
    have hstep := permLoopStep_lengths (kEffective kReq (nPerms X)) (codeX X) p st
    exact ih _ ⟨hstep.1.trans hbase.1, hstep.2.trans hbase.2⟩

theorem foldl_set_length {α : Type} (f : ℕ → α) :
    ∀ (l : List ℕ) (init : List α),
      (l.foldl (fun acc r => acc.set r (f r)) init).length = init.length := by
  intro l
  induction l with
  | nil => intro init; rfl
  | cons r rest ih =>
    intro init
    rw [List.foldl_cons, ih, List.length_set]

theorem foldl_set_pos_getD_zero {α : Type} (f : ℕ → α) (d : α) :
    ∀ (l : List ℕ) (init : List α), (∀ r ∈ l, 1 ≤ r) →
      (l.foldl (fun acc r => acc.set r (f r)) init).getD 0 d = init.getD 0 d := by
  intro l
  induction l with
  | nil => intro init _; rfl
  | cons r rest ih =>
    intro init hpos
    have hr : 1 ≤ r := hpos r (List.mem_cons_self r rest)
    rw [List.foldl_cons, ih _ (fun s hs => hpos s (List.mem_cons_of_mem r hs)),
      getD_set_ne _ _ _ _ _ (by omega)]

/-! ### Claims about the permutation sampler -/

/-- Claim C3: for every input `X` with `len(X) > 1` and every `k`, the rows of
the accepted permutation-code matrix of a completed run of
`unique_permutations` are pairwise distinct, even when `X` contains repeated
values. -/
theorem C3_coded_rows_distinct (X : List ℤ) (kReq : Option ℕ)
    (proposals : List (List ℕ)) (h2 : 2 ≤ X.length)
    (hk : 1 ≤ kEffective kReq (nPerms X))
    (hc : upermsComplete X kReq proposals) :
    (runPermLoop X kReq proposals).permsC.Nodup := by
  have hinv := runPermLoop_inv X kReq proposals hk
  obtain ⟨-, h2', h3, h4, -, -⟩ := hinv
  have hu : (runPermLoop X kReq proposals).u + 1
      = kEffective kReq (nPerms X) := by
    rw [hc]; omega
  rw [hu, ← h2', List.take_length] at h4
  exact h4

/-- Witness for C3 on a concrete completed run: `X = [0, 1]`, all permutations
requested, candidate stream `[[1, 0]]`. -/
theorem C3_witness :
    (runPermLoop [0, 1] none [[1, 0]]).permsC.Nodup :=
  C3_coded_rows_distinct [0, 1] none [[1, 0]] (by decide) (by decide) (by decide)

set_option maxRecDepth 4000 in
/-- Claim C4 is false as stated: on the duplicate-free input
`X = range(23)` the int64 numerator product of lines 107-108 wraps, so the
code returns `8128291617894825984` (that is `23! mod 2^64`) instead of
`23!`. -/
theorem C4_counterexample :
    ((List.range 23).map (fun i => (i : ℤ))).Nodup ∧
    nPerms ((List.range 23).map (fun i => (i : ℤ))) = 8128291617894825984 ∧
    ¬ nPerms ((List.range 23).map (fun i => (i : ℤ)))
      = Nat.factorial ((List.range 23).map (fun i => (i : ℤ))).length := by
  refine ⟨by decide, by decide, by decide⟩

/-- Claim C4, amended: for every multiset `X` with more than one element,
`nPerms` equals `1` when all elements are identical (for any length), and
equals `n!` when all elements are distinct provided `n ≤ 20` — the exact
range in which the int64 numerator product `prod(arange(2, n+1))` does not
wrap (`20! < 2^63 ≤ 21!`). -/
theorem C4_nPerms_extremes (X : List ℤ) (h2 : 2 ≤ X.length) :
    (X.Nodup → X.length ≤ 20 → nPerms X = Nat.factorial X.length) ∧
    (∀ a : ℤ, (∀ y ∈ X, y = a) → nPerms X = 1) := by
  constructor
  · intro hnd hb
    exact nPerms_nodup X hnd (by omega) hb
  · intro a ha
    have hX : X = List.replicate X.length a :=
      List.eq_replicate_iff.2 ⟨rfl, ha⟩
    rw [hX]
    exact nPerms_replicate a X.length (by omega)

/-- Witness for C4 at concrete inputs: a duplicate-free pair and a constant
triple. -/
theorem C4_witness :
    nPerms [0, 1] = Nat.factorial 2 ∧ nPerms [(5 : ℤ), 5, 5] = 1 :=
  ⟨(C4_nPerms_extremes [0, 1] (by decide)).1 (by decide) (by decide),
   (C4_nPerms_extremes [(5 : ℤ), 5, 5] (by decide)).2 5 (by decide)⟩

/-- Claim C5: in every completed run, row 0 of the returned index matrix is
the identity `[0, ..., n-1]`, row 0 of the permuted output equals `X`
unchanged in the vector case, and in the matrix case slice `[:, :, 0]` of the
stacked output equals the input matrix. -/
theorem C5_identity_first (X : List ℤ) (kReq : Option ℕ)
    (proposals : List (List ℕ)) (h2 : 2 ≤ X.length)
    (hk : 1 ≤ kEffective kReq (nPerms X))
    (hc : upermsComplete X kReq proposals) :
    (uperms X kReq proposals).2.1.getD 0 [] = List.range X.length ∧
    (uperms X kReq proposals).2.2.getD 0 [] = X ∧
    (∀ (M : List (List ℤ)) (pI : List (List ℕ)) (k : ℕ), 1 ≤ k →
      (buildPermsOutMat M pI k).getD 0 [] = M) := by
  have hinv := runPermLoop_inv X kReq proposals hk
  obtain ⟨-, -, -, -, h5, -⟩ := hinv
  refine ⟨h5, ?_, ?_⟩
  · show (buildPermsOutVec X (runPermLoop X kReq proposals).pInds
      (kEffective kReq (nPerms X))).getD 0 [] = X
    rw [buildPermsOutVec, foldl_set_pos_getD_zero _ _ _ _
      (fun r hr => (List.mem_range'_1.1 hr).1)]
    obtain ⟨m, hm⟩ := Nat.exists_eq_add_of_le hk
    rw [hm]
    simp [List.replicate_succ, Nat.add_comm 1 m]
  · intro M pI k hk'
    rw [buildPermsOutMat, foldl_set_pos_getD_zero _ _ _ _
      (fun r hr => (List.mem_range'_1.1 hr).1)]
    obtain ⟨m, hm⟩ := Nat.exists_eq_add_of_le hk'
    rw [hm]
    simp [List.replicate_succ, Nat.add_comm 1 m]

/-- Witness for C5 on a concrete completed run and on a concrete matrix
instance. -/
theorem C5_witness :
    (uperms [0, 1] none [[1, 0]]).2.1.getD 0 [] = List.range 2 ∧
    (uperms [0, 1] none [[1, 0]]).2.2.getD 0 [] = [0, 1] ∧
    (buildPermsOutMat [[1, 2], [3, 4]] [[1, 0]] 2).getD 0 [] = [[1, 2], [3, 4]] := by
  have h := C5_identity_first [0, 1] none [[1, 0]] (by decide) (by decide) (by decide)
  exact ⟨h.1, h.2.1, h.2.2 [[1, 2], [3, 4]] [[1, 0]] 2 (by decide)⟩

/-- Claim C6: if `k` is omitted or exceeds `nPerms`, a completed run returns
exactly `nPerms` index rows and `nPerms` permuted outputs, not `k`. -/
theorem C6_k_clamped (X : List ℤ) (kReq : Option ℕ) (proposals : List (List ℕ))
    (h2 : 2 ≤ X.length)
    (hbig : kReq = none ∨ ∃ k0, kReq = some k0 ∧ nPerms X < k0)
    (hc : upermsComplete X kReq proposals) :
    (uperms X kReq proposals).2.1.length = nPerms X ∧
    (uperms X kReq proposals).2.2.length = nPerms X := by
  have hkeff : kEffective kReq (nPerms X) = nPerms X := by
    rcases hbig with h | ⟨k0, hk0, hlt⟩
    · rw [h]; rfl
    · rw [hk0]
      simp only [kEffective]
      rw [if_pos hlt]
  constructor
  · show (runPermLoop X kReq proposals).pInds.length = nPerms X
    rw [(runPermLoop_lengths X kReq proposals).1, hkeff]
  · show (buildPermsOutVec X (runPermLoop X kReq proposals).pInds
      (kEffective kReq (nPerms X))).length = nPerms X
    rw [buildPermsOutVec, foldl_set_length, List.length_replicate, hkeff]

/-- Witness for C6: requesting `k = 5 > nPerms = 2` on `X = [0, 1]` returns
two rows. -/
theorem C6_witness :
    (uperms [0, 1] (some 5) [[1, 0]]).2.1.length = nPerms [0, 1] ∧
    (uperms [0, 1] (some 5) [[1, 0]]).2.2.length = nPerms [0, 1] :=
  C6_k_clamped [0, 1] (some 5) [[1, 0]] (by decide)
    (Or.inr ⟨5, rfl, by decide⟩) (by decide)

/-! ### Exact rational scalars

Sample and probability values are exact rationals, carried in unnormalized
`num / den` form.  All operations below implement exact rational arithmetic
(comparison by cross-multiplication), using only integer addition and
multiplication so that every concrete run of the embedding is
kernel-computable. -/

structure Frac where
  num : ℤ
  den : ℕ
deriving DecidableEq

def Frac.add (a b : Frac) : Frac :=
  ⟨a.num * (b.den : ℤ) + b.num * (a.den : ℤ), a.den * b.den⟩

def Frac.neg (a : Frac) : Frac := ⟨-a.num, a.den⟩

def Frac.mul (a b : Frac) : Frac := ⟨a.num * b.num, a.den * b.den⟩

def Frac.inv (a : Frac) : Frac :=
  if a.num < 0 then ⟨-(a.den : ℤ), a.num.natAbs⟩ else ⟨(a.den : ℤ), a.num.natAbs⟩

def Frac.abs (a : Frac) : Frac := ⟨(a.num.natAbs : ℤ), a.den⟩

instance : Add Frac := ⟨Frac.add⟩

instance : Neg Frac := ⟨Frac.neg⟩

instance : Sub Frac := ⟨fun a b => a + -b⟩

instance : Mul Frac := ⟨Frac.mul⟩

instance : Div Frac := ⟨fun a b => a * b.inv⟩

instance (n : ℕ) : OfNat Frac n := ⟨⟨(n : ℤ), 1⟩⟩

instance : NatCast Frac := ⟨fun n => ⟨(n : ℤ), 1⟩⟩

instance : Zero Frac := ⟨⟨0, 1⟩⟩

instance : One Frac := ⟨⟨1, 1⟩⟩

instance : LT Frac := ⟨fun a b => a.num * (b.den : ℤ) < b.num * (a.den : ℤ)⟩

instance : LE Frac := ⟨fun a b => a.num * (b.den : ℤ) ≤ b.num * (a.den : ℤ)⟩

instance (a b : Frac) : Decidable (a < b) :=
  inferInstanceAs (Decidable (a.num * (b.den : ℤ) < b.num * (a.den : ℤ)))

instance (a b : Frac) : Decidable (a ≤ b) :=
  inferInstanceAs (Decidable (a.num * (b.den : ℤ) ≤ b.num * (a.den : ℤ)))

/-! ### Event injector (`insert_events`, utils.py lines 228-396)

The NumPy global RNG stream is modelled by an
abstract implementation `RngImpl σ` over a state type `σ`; `seedFn` models
`np.random.seed`, `choiceP` models `np.random.choice(all_idx, p=p)` (the
draws a real RNG can make always carry positive probability, which the
embedding enforces by a `badDraw` guard), `choiceN` models
`np.random.choice(np.arange(m))`, `randInt` models `np.random.randint`. -/

/-- Failure conditions of the injector pipeline.  `badDraw` marks an RNG
draw impossible for the real sampler (probability zero or out of range);
executions of the Python code correspond exactly to the runs that never
hit it. -/
inductive Err where
  | assertShape
  | unknownDistribution
  | notEnough
  | assertEnd
  | badDraw
  | emptyChoice
  | outOfDraws
  | notImpl
deriving DecidableEq

/-- Abstract interface of the seeded NumPy RNG stream. -/
structure RngImpl (σ : Type) where
  seedFn : ℕ → σ
  choiceP : σ → List Frac → ℕ × σ
  choiceN : σ → ℕ → ℕ × σ
  randInt : σ → ℤ → ℤ → ℤ × σ

/-- `distribution` argument: one of the three string specifiers or an
explicit probability vector. -/
inductive EventDistribution where
  | constant
  | increasing
  | decreasing
  | explicitVec (v : List Frac)

/-- `p = p / p.sum()`. -/
def renorm (p : List Frac) : List Frac :=
  p.map (fun v => v / p.sum)

/-- `len(np.where(p > 0)[0])`. -/
def countPos (p : List Frac) : ℕ :=
  (p.filter (fun v => decide (0 < v))).length

/-- `p[s:e] = 0`. -/
def zeroRange (p : List Frac) (s e : ℕ) : List Frac :=
  (List.range p.length).map (fun j => if s ≤ j ∧ j < e then 0 else p.getD j 0)

/-- `p[-padding:] = 0`.  Note the Python quirk: for `padding = 0` the slice
`p[-0:]` is `p[0:]`, i.e. the whole vector is zeroed. -/
def zeroTail (p : List Frac) (padding : ℕ) : List Frac :=
  (List.range p.length).map
    (fun j => if padding = 0 ∨ p.length - padding ≤ j then 0 else p.getD j 0)

/-- `np.linspace(a, b, n)` (exact rationals). -/
def linspace (a b : Frac) (n : ℕ) : List Frac :=
  (List.range n).map (fun i => a + (b - a) * i / ((n : Frac) - 1))

/-- Lines 307-318: the shaping vector from the distribution specifier.  An
explicit NumPy vector matches none of the string comparisons
(`distribution=='constant'` is falsy for a numeric array), so it reaches the
`else` branch and the call fails with `unknown distribution`. -/
def buildP (dist : EventDistribution) (dataLen : ℕ) : Except Err (List Frac) :=
  match dist with
  | .constant => .ok (renorm (List.replicate dataLen 1))
  | .decreasing => .ok (renorm ((linspace 1 0 dataLen).map (fun v => v * v)))
  | .increasing => .ok (renorm ((linspace 0 1 dataLen).map (fun v => v * v)))
  | .explicitVec _ => .error .unknownDistribution

/-- Lines 276-279: an explicit distribution vector must be 1-D of length
`len(data)` and sum to 1 within the `np.isclose` tolerance
`atol + rtol = 1e-8 + 1e-5`. -/
def distAssertOk (dist : EventDistribution) (dataLen : ℕ) : Bool :=
  match dist with
  | .explicitVec v =>
      (v.length == dataLen) && decide ((v.sum - 1).abs ≤ (1001 : Frac) / 100000000)
  | _ => true

/-- The scheduler loop (lines 330-355), one recursion step per event still to
place.  Each iteration draws (and discards) one start candidate, performs the
feasibility check `len(available) < n_events - i`, draws the real start,
asserts `end_idx < len(p)`, zeroes `p[start:end]` and renormalizes. -/
def schedLoop {σ : Type} (R : RngImpl σ) (span lag nSteps : ℕ) :
    ℕ → σ → List Frac → List ℕ → Except Err (σ × List ℕ)
  | 0, s, _, acc => .ok (s, acc)
  | r + 1, s, p, acc =>
    let d1 := R.choiceP s p
    if ¬ (0 < p.getD d1.1 0) then .error .badDraw else
    if countPos p < r + 1 then .error .notEnough else
    let d2 := R.choiceP d1.2 p
    if ¬ (0 < p.getD d2.1 0) then .error .badDraw else
    let endIdx := d2.1 + lag * nSteps + span
    if ¬ (endIdx < p.length) then .error .assertEnd else
    schedLoop R span lag nSteps r d2.2 (renorm (zeroRange p d2.1 endIdx))
      (acc ++ [d2.1])

/-- One onset-table row (lines 360-365 and 380-385). -/
structure EventRow where
  idx : ℕ
  pos : ℤ
  step : ℕ
  classIdx : ℕ
  span : ℕ
  jitter : ℤ
deriving DecidableEq, Inhabited

/-- Elementwise sum of two matrices of identical shape (NumPy `+`); the
embedding keeps the shape of the first argument. -/
def rowAdd (r t : List Frac) : List Frac :=
  (List.range r.length).map (fun i => r.getD i 0 + t.getD i 0)

def matAdd (a b : List (List Frac)) : List (List Frac) :=
  (List.range a.length).map (fun i => rowAdd (a.getD i []) (b.getD i []))

def matScale (c : Frac) (m : List (List Frac)) : List (List Frac) :=
  m.map (fun r => r.map (fun v => c * v))

/-- `mean(0)` over a stack of equally shaped matrices. -/
def matMean (ms : List (List (List Frac))) : List (List Frac) :=
  match ms with
  | [] => []
  | h :: t => matScale (1 / ((t.length + 1 : ℕ) : Frac)) (t.foldl matAdd h)

/-- Matrix transpose for a rectangular matrix (`template.T`). -/
def matT (m : List (List Frac)) : List (List Frac) :=
  (List.range (m.headD []).length).map (fun j => m.map (fun r => r.getD j 0))

/-- Lines 301-305: one mean template per distinct label.  Python iterates
`set(insert_labels)`; the embedding uses first-occurrence order of the
labels, which fixes one concrete enumeration of the set. -/
def classMeans (insertData : List (List (List Frac))) (labels : List ℕ) :
    List (List (List Frac)) :=
  labels.dedup.map (fun l =>
    matMean (((labels.zip insertData).filter (fun q => q.1 == l)).map Prod.snd))

/-- `class_mean.shape[-1]` resp. `insert_data.shape[-1]`. -/
def spanOf (cm : List (List (List Frac))) : ℕ :=
  ((cm.headD []).headD []).length

/-- Line 377: `data_sim[pos:pos+span, :] += class_mean[class_idx].T`, with
`tT = template.T` of shape `[span, channels]`.  Row `j` of the series gets
row `j - pos` of the transposed template added.  The embedding clips
out-of-range rows (a run of the Python code in which the slice leaves the
array fails instead of clipping, so successful runs agree). -/
def addTemplate (d : List (List Frac)) (pos : ℤ) (tT : List (List Frac)) :
    List (List Frac) :=
  (List.range d.length).map (fun (j : ℕ) =>
    if pos ≤ (j : ℤ) ∧ (j : ℤ) < pos + tT.length then
      rowAdd (d.getD j []) (tT.getD ((j : ℤ) - pos).toNat [])
    else d.getD j [])

/-- Python `enumerate`. -/
def enumerate {α : Type} : ℕ → List α → List (ℕ × α)
  | _, [] => []
  | i, a :: t => (i, a) :: enumerate (i + 1) t

/-- The inner `for step in range(n_steps+1)` loop (lines 374-390).  Per step:
record the row with the jitter that led to the current position (zero for
step 0), superimpose the template, then draw the next jitter and advance
`pos` by `lag + jitter` and the sequence pointer by one. -/
def stepLoop {σ : Type} (R : RngImpl σ) (cm : List (List (List Frac)))
    (sequence : List ℕ) (lag jitter : ℕ) (trainIdx span : ℕ) :
    ℕ → ℕ → ℕ → ℤ → ℤ → List (List Frac) → List EventRow → σ →
    List (List Frac) × List EventRow × σ
  | 0, _, _, _, _, d, acc, s => (d, acc, s)
  | n + 1, stepNo, seqI, pos, smpJ, d, acc, s =>
    let classIdx := sequence.getD seqI 0
    let d2 := addTemplate d pos (matT (cm.getD classIdx []))
    let acc2 := acc ++ [⟨trainIdx, pos, stepNo, classIdx, span, smpJ⟩]
    let jdraw := if jitter = 0 then ((0 : ℤ), s)
      else R.randInt s (-(jitter : ℤ)) ((jitter : ℤ) + 1)
    stepLoop R cm sequence lag jitter trainIdx span n (stepNo + 1) (seqI + 1)
      (pos + (lag : ℤ) + jdraw.1) jdraw.1 d2 acc2 jdraw.2

/-- The outer `for idx, start_idx in enumerate(replay_start_idxs)` loop
(lines 367-390).  Per event train: draw a starting position in the sequence
such that `n_steps` forward steps stay in bounds, then run the step loop. -/
def insertLoop {σ : Type} (R : RngImpl σ) (cm : List (List (List Frac)))
    (sequence : List ℕ) (lag jitter nSteps span : ℕ) :
    List (ℕ × ℕ) → List (List Frac) → List EventRow → σ →
    Except Err (List (List Frac) × List EventRow × σ)
  | [], d, acc, s => .ok (d, acc, s)
  | (idx, start) :: rest, d, acc, s =>
    if sequence.length ≤ nSteps then .error .emptyChoice else
    let sdraw := R.choiceN s (sequence.length - nSteps)
    if ¬ (sdraw.1 < sequence.length - nSteps) then .error .badDraw else
    let out := stepLoop R cm sequence lag jitter idx span (nSteps + 1) 0
      sdraw.1 (start : ℤ) 0 d acc sdraw.2
    insertLoop R cm sequence lag jitter nSteps span rest out.1 out.2.1 out.2.2

/-- `insert_events` (lines 228-396), returning also the internal list of
scheduled start offsets.  The incoming RNG state `rng0` is the state of the
shared NumPy stream at call time; line 287 (`np.random.seed(seed)`) replaces
it by a state derived via `hashFn` from the content of `data` alone.
`insertData` is the 3-D array after line 283's reshape. -/
def insertEventsAux {σ : Type} (R : RngImpl σ) (hashFn : List (List Frac) → ℕ)
    (rng0 : σ) (data : List (List Frac)) (insertData : List (List (List Frac)))
    (insertLabels : List ℕ) (sequence : List ℕ)
    (nEvents lag jitter nSteps : ℕ) (dist : EventDistribution) :
    Except Err (List ℕ × List (List Frac) × List EventRow) :=
  if ¬ (insertData.length = insertLabels.length) then .error .assertShape else
  if ¬ (distAssertOk dist data.length) then .error .assertShape else
  let s0 := R.seedFn (hashFn data)
  let cm := classMeans insertData insertLabels
  match buildP dist data.length with
  | .error e => .error e
  | .ok p0 =>
    let padding := nSteps * lag + (data.headD []).length
    let p1 := renorm (zeroTail p0 padding)
    match schedLoop R (spanOf insertData) lag nSteps nEvents s0 p1 [] with
    | .error e => .error e
    | .ok sres =>
      match insertLoop R cm sequence lag jitter nSteps (spanOf cm)
        (enumerate 0 sres.2) data [] sres.1 with
      | .error e => .error e
      | .ok ires => .ok (sres.2, ires.1, ires.2.1)

/-- The public result of `insert_events` with `return_onsets=True`:
the injected copy of `data` and the onset table. -/
def insertEvents {σ : Type} (R : RngImpl σ) (hashFn : List (List Frac) → ℕ)
    (rng0 : σ) (data : List (List Frac)) (insertData : List (List (List Frac)))
    (insertLabels : List ℕ) (sequence : List ℕ)
    (nEvents lag jitter nSteps : ℕ) (dist : EventDistribution) :
    Except Err (List (List Frac) × List EventRow) :=
  (insertEventsAux R hashFn rng0 data insertData insertLabels sequence
    nEvents lag jitter nSteps dist).map (fun out => (out.2.1, out.2.2))

/-- The stubs (lines 161-168, 221-226): every call fails immediately with
`NotImplementedError`. -/
def tf2seq (TF : List (List Frac)) : Except Err (List ℕ) :=
  .error .notImpl

def simulate_eeg_resting_state (nSamples : ℕ)
    (alphaFreq alphaStrength noise : Frac) (nChannels : ℕ) :
    Except Err (List (List Frac)) :=
  .error .notImpl

def simulate_eeg_localizer (nSamples nClasses : ℕ) (noise : Frac)
    (nChannels : ℕ) : Except Err (List (List Frac)) :=
  .error .notImpl

/-! ### Claims about the event injector -/

instance {ε α : Type} [DecidableEq ε] [DecidableEq α] :
    DecidableEq (Except ε α) := fun a b => by
  cases a <;> cases b
  case error.error e1 e2 =>
    exact if h : e1 = e2 then .isTrue (by rw [h]) else .isFalse (by simp [h])
  case error.ok => exact .isFalse (by simp)
  case ok.error => exact .isFalse (by simp)
  case ok.ok v1 v2 =>
    exact if h : v1 = v2 then .isTrue (by rw [h]) else .isFalse (by simp [h])

/-- The non-overlap property claimed for the scheduled start offsets: all
`[start, start + footprint)` intervals are pairwise disjoint. -/
def intervalsDisjoint (starts : List ℕ) (footprint : ℕ) : Prop :=
  starts.Pairwise (fun a b => a + footprint ≤ b ∨ b + footprint ≤ a)

instance (starts : List ℕ) (footprint : ℕ) :
    Decidable (intervalsDisjoint starts footprint) := by
  unfold intervalsDisjoint
  infer_instance

/-- A concrete RNG stream refuting claim C1: the scheduler draws
(discarded 0, start 12), then (discarded 0, start 5). -/
def cexRng : RngImpl ℕ :=
  ⟨fun _ => 0, fun s _ => ([0, 12, 0, 5].getD s 0, s + 1),
   fun s _ => (0, s + 1), fun s _ _ => (0, s + 1)⟩

/-- The shaping vector for `data_length = 30`, `distribution='constant'`,
`padding = 10` (for example `n_steps=2`, `lag=3`, `span=4`, 4 channels),
exactly as lines 308-323 compute it. -/
def cexP1 : List Frac :=
  renorm (zeroTail (renorm (List.replicate 30 1)) 10)

/-- Claim C1 is false on the code: a successful scheduler run (footprint
`lag*n_steps + span = 3*2 + 4 = 10`) accepts starts `12` and then `5`,
whose intervals `[12, 22)` and `[5, 15)` overlap.  The code only zeroes
`p[start : start + footprint]`, never the `footprint - 1` positions before
an accepted start, so a later event can begin just before an earlier one. -/
theorem C1_counterexample :
    schedLoop cexRng 4 3 2 2 0 cexP1 [] = .ok (4, [12, 5]) ∧
    ¬ intervalsDisjoint [12, 5] (3 * 2 + 4) := by
  constructor
  · decide
  · decide

/-- The uniform probability vector of length 4: a well-formed explicit
distribution (1-D, length `len(data)`, sums to 1 exactly). -/
def uniformVec4 : List Frac := [1 / 4, 1 / 4, 1 / 4, 1 / 4]

/-- Claim C2 is false on the code: an explicit probability vector passes the
validation asserts of lines 276-279 but the dispatch of lines 308-318 has no
array branch — the string comparisons do not match an ndarray, so the call
always dies in the `else` with `unknown distribution` and the vector is
never used as the shaping vector `p`. -/
theorem C2_vector_rejected :
    insertEventsAux cexRng (fun _ => 0) 0 (List.replicate 4 [0]) [[[1]]] [0]
      [0] 1 1 0 1 (.explicitVec uniformVec4) = .error .unknownDistribution := by
  decide

/-- Claim C7: the injector is deterministic in the content of `data`: the
seed is derived from the data content alone (lines 285-287), so two calls
with identical data content and identical parameters return identical
results, whatever the state of the shared RNG stream was when each call
began. -/
theorem C7_content_deterministic {σ : Type} (R : RngImpl σ)
    (hashFn : List (List Frac) → ℕ) (s1 s2 : σ) (data1 data2 : List (List Frac))
    (insertData : List (List (List Frac))) (insertLabels : List ℕ)
    (sequence : List ℕ) (nEvents lag jitter nSteps : ℕ)
    (dist : EventDistribution) (h : data1 = data2) :
    insertEvents R hashFn s1 data1 insertData insertLabels sequence
      nEvents lag jitter nSteps dist =
    insertEvents R hashFn s2 data2 insertData insertLabels sequence
      nEvents lag jitter nSteps dist := by
  subst h
  rfl

/-- The RNG implementation used by the concrete witness runs: a counter
state whose draws are all zero. -/
def testRng : RngImpl ℕ :=
  ⟨fun _ => 0, fun s _ => (0, s + 1), fun s _ => (0, s + 1),
   fun s _ _ => (0, s + 1)⟩

/-- A 6-sample, 1-channel series of zeros. -/
def testData : List (List Frac) := List.replicate 6 [0]

/-- Witness for C7: two concrete invocations on the same data but with
different incoming RNG states coincide. -/
theorem C7_witness :
    insertEvents testRng (fun _ => 0) 0 testData [[[1]]] [0] [0, 0]
      1 1 0 1 .constant =
    insertEvents testRng (fun _ => 0) 99 testData [[[1]]] [0] [0, 0]
      1 1 0 1 .constant :=
  C7_content_deterministic testRng (fun _ => 0) 0 99 testData testData
    [[[1]]] [0] [0, 0] 1 1 0 1 .constant rfl

/-- Claim C9: every call to a stubbed capability (`tf2seq`,
`simulate_eeg_resting_state`, `simulate_eeg_localizer`) fails immediately
with the not-implemented error, for all arguments, and never returns a
result. -/
theorem C9_stubs_always_fail :
    (∀ TF, tf2seq TF = .error .notImpl) ∧
    (∀ n a b c m, simulate_eeg_resting_state n a b c m = .error .notImpl) ∧
    (∀ n k c m, simulate_eeg_localizer n k c m = .error .notImpl) :=
  ⟨fun _ => rfl, fun _ _ _ _ _ => rfl, fun _ _ _ _ => rfl⟩

/-! ### Shape preservation (claim C8) -/

theorem getD_map_range {α : Type} (f : ℕ → α) (n j : ℕ) (d : α) :
    ((List.range n).map f).getD j d = if j < n then f j else d := by
  rcases Nat.lt_or_ge j n with h | h
  · rw [if_pos h, List.getD_eq_getElem?_getD, List.getElem?_map,
      List.getElem?_range h]
    rfl
  · rw [if_neg (Nat.not_lt.2 h), List.getD_eq_getElem?_getD,
      List.getElem?_eq_none (by simpa using h)]
    rfl

theorem getD_of_length_le {α : Type} (l : List α) (j : ℕ) (d : α)
    (h : l.length ≤ j) : l.getD j d = d := by
  rw [List.getD_eq_getElem?_getD, List.getElem?_eq_none h]
  rfl

/-- Two series have the same shape: same number of samples and the same
channel count at every sample. -/
def shapeEq (a b : List (List Frac)) : Prop :=
  a.length = b.length ∧ ∀ j, (a.getD j []).length = (b.getD j []).length

theorem shapeEq_refl (a : List (List Frac)) : shapeEq a a :=
  ⟨rfl, fun _ => rfl⟩

theorem shapeEq_trans {a b c : List (List Frac)} (h1 : shapeEq a b)
    (h2 : shapeEq b c) : shapeEq a c :=
  ⟨h1.1.trans h2.1, fun j => (h1.2 j).trans (h2.2 j)⟩

theorem rowAdd_length (r t : List Frac) : (rowAdd r t).length = r.length := by
  simp [rowAdd]

theorem addTemplate_shape (d : List (List Frac)) (pos : ℤ)
    (tT : List (List Frac)) : shapeEq (addTemplate d pos tT) d := by
  refine ⟨by simp [addTemplate], ?_⟩
  intro j
  rw [addTemplate, getD_map_range]
  rcases Nat.lt_or_ge j d.length with h | h
  · rw [if_pos h]
    split
    · rw [rowAdd_length]
    · rfl
  · rw [if_neg (Nat.not_lt.2 h), getD_of_length_le _ _ _ h]

theorem stepLoop_shape {σ : Type} (R : RngImpl σ) (cm : List (List (List Frac)))
    (sequence : List ℕ) (lag jitter trainIdx span : ℕ) :
    ∀ (n stepNo seqI : ℕ) (pos smpJ : ℤ) (d : List (List Frac))
      (acc : List EventRow) (s : σ),
      shapeEq (stepLoop R cm sequence lag jitter trainIdx span n stepNo seqI
        pos smpJ d acc s).1 d := by
  intro n
  induction n with
  | zero =>
    intro stepNo seqI pos smpJ d acc s
    exact shapeEq_refl d
  | succ m ih =>
    intro stepNo seqI pos smpJ d acc s
    rw [stepLoop]
    exact shapeEq_trans (ih _ _ _ _ _ _ _) (addTemplate_shape _ _ _)

theorem insertLoop_shape {σ : Type} (R : RngImpl σ)
    (cm : List (List (List Frac))) (sequence : List ℕ)
    (lag jitter nSteps span : ℕ) :
    ∀ (pairs : List (ℕ × ℕ)) (d : List (List Frac)) (acc : List EventRow)
      (s : σ) (out : List (List Frac) × List EventRow × σ),
      insertLoop R cm sequence lag jitter nSteps span pairs d acc s = .ok out →
      shapeEq out.1 d := by
  intro pairs
  induction pairs with
  | nil =>
    intro d acc s out h
    rw [insertLoop] at h
    cases h
    exact shapeEq_refl d
  | cons pr rest ih =>
    intro d acc s out h
    obtain ⟨idx, start⟩ := pr
    rw [insertLoop] at h
    split at h
    · cases h
    · dsimp only at h
      split at h
      · cases h
      · exact shapeEq_trans (ih _ _ _ _ h) (stepLoop_shape R cm sequence
          lag jitter idx span (nSteps + 1) 0 _ _ 0 d acc _)

theorem insertEventsAux_shape {σ : Type} (R : RngImpl σ)
    (hashFn : List (List Frac) → ℕ) (rng0 : σ) (data : List (List Frac))
    (insertData : List (List (List Frac))) (insertLabels : List ℕ)
    (sequence : List ℕ) (nEvents lag jitter nSteps : ℕ)
    (dist : EventDistribution)
    (out : List ℕ × List (List Frac) × List EventRow)
    (h : insertEventsAux R hashFn rng0 data insertData insertLabels sequence
      nEvents lag jitter nSteps dist = .ok out) :
    shapeEq out.2.1 data := by
  rw [insertEventsAux] at h
  split at h
  · cases h
  · split at h
    · cases h
    · try dsimp only at h
      split at h
      · cases h
      · try dsimp only at h
        split at h
        · cases h
        · try dsimp only at h
          split at h
          · cases h
          · rename_i ires hloop
            cases h
            exact insertLoop_shape R _ _ _ _ _ _ _ _ _ _ _ hloop

/-- Claim C8: every successful call returns a series with the shape of the
input `data`; the insertions are applied to the copy made on line 357, the
input itself being left untouched (the embedding consumes `data` as an
immutable value and the injection result is built from that copy). -/
theorem C8_shape_preserved {σ : Type} (R : RngImpl σ)
    (hashFn : List (List Frac) → ℕ) (rng0 : σ) (data : List (List Frac))
    (insertData : List (List (List Frac))) (insertLabels : List ℕ)
    (sequence : List ℕ) (nEvents lag jitter nSteps : ℕ)
    (dist : EventDistribution) (dOut : List (List Frac))
    (evs : List EventRow)
    (h : insertEvents R hashFn rng0 data insertData insertLabels sequence
      nEvents lag jitter nSteps dist = .ok (dOut, evs)) :
    shapeEq dOut data := by
  rw [insertEvents] at h
  rcases hA : insertEventsAux R hashFn rng0 data insertData insertLabels
      sequence nEvents lag jitter nSteps dist with e | out
  · rw [hA] at h
    cases h
  · rw [hA] at h
    rw [Except.map, Except.ok.injEq] at h
    have hd : dOut = out.2.1 := by
      have := congrArg Prod.fst h.symm
      simpa using this
    rw [hd]
    exact insertEventsAux_shape R hashFn rng0 data insertData insertLabels
      sequence nEvents lag jitter nSteps dist out hA

/-! ### Step-0 jitter (claim C10) -/

/-- The property of an onset row claimed by C10: a step-0 row carries zero
jitter and sits exactly at its train's scheduled start offset. -/
def GoodRow (starts : List ℕ) (r : EventRow) : Prop :=
  r.step = 0 → r.jitter = 0 ∧ r.pos = ((starts.getD r.idx 0 : ℕ) : ℤ)

theorem stepLoop_rows {σ : Type} (R : RngImpl σ) (cm : List (List (List Frac)))
    (sequence : List ℕ) (lag jitter trainIdx span : ℕ) :
    ∀ (n stepNo seqI : ℕ) (pos smpJ : ℤ) (d : List (List Frac))
      (acc : List EventRow) (s : σ),
      ∀ r ∈ (stepLoop R cm sequence lag jitter trainIdx span n stepNo seqI
        pos smpJ d acc s).2.1,
        r ∈ acc ∨ (r.idx = trainIdx ∧ stepNo ≤ r.step ∧
          (r.step = stepNo → r.jitter = smpJ ∧ r.pos = pos)) := by
  intro n
  induction n with
  | zero =>
    intro stepNo seqI pos smpJ d acc s r hr
    exact Or.inl hr
  | succ m ih =>
    intro stepNo seqI pos smpJ d acc s r hr
    rw [stepLoop] at hr
    rcases ih _ _ _ _ _ _ _ r hr with hacc | hnew
    · rcases List.mem_append.1 hacc with h1 | h2
      · exact Or.inl h1
      · rw [List.mem_singleton] at h2
        subst h2
        exact Or.inr ⟨rfl, le_refl _, fun _ => ⟨rfl, rfl⟩⟩
    · refine Or.inr ⟨hnew.1, le_trans (Nat.le_succ _) hnew.2.1, ?_⟩
      intro hstep
      have := hnew.2.1
      omega
  
theorem insertLoop_rows {σ : Type} (R : RngImpl σ)
    (cm : List (List (List Frac))) (sequence : List ℕ)
    (lag jitter nSteps span : ℕ) (starts : List ℕ) :
    ∀ (pairs : List (ℕ × ℕ)) (d : List (List Frac)) (acc : List EventRow)
      (s : σ) (out : List (List Frac) × List EventRow × σ),
      insertLoop R cm sequence lag jitter nSteps span pairs d acc s = .ok out →
      (∀ r ∈ acc, GoodRow starts r) →
      (∀ q ∈ pairs, starts.getD q.1 0 = q.2) →
      ∀ r ∈ out.2.1, GoodRow starts r := by
  intro pairs
  induction pairs with
  | nil =>
    intro d acc s out h hacc hpairs r hr
    rw [insertLoop] at h
    cases h
    exact hacc r hr
  | cons pr rest ih =>
    intro d acc s out h hacc hpairs r hr
    obtain ⟨idx, start⟩ := pr
    rw [insertLoop] at h
    split at h
    · cases h
    · dsimp only at h
      split at h
      · cases h
      · refine ih _ _ _ _ h ?_ (fun q hq => hpairs q (List.mem_cons_of_mem _ hq))
          r hr
        intro r2 hr2
        rcases stepLoop_rows R cm sequence lag jitter idx span _ _ _ _ _ _ _ _
            r2 hr2 with h1 | h2
        · exact hacc r2 h1
        · intro hstep
          obtain ⟨hj, hp⟩ := h2.2.2 hstep
          refine ⟨hj, ?_⟩
          rw [hp, h2.1, hpairs (idx, start) (List.mem_cons_self _ _)]

theorem enumerate_mem_getD {α : Type} (d : α) :
    ∀ (post pre : List α) (q : ℕ × α), q ∈ enumerate pre.length post →
      (pre ++ post).getD q.1 d = q.2 := by
  intro post
  induction post with
  | nil =>
    intro pre q hq
    exact absurd hq (List.not_mem_nil q)
  | cons a t ih =>
    intro pre q hq
    rw [enumerate] at hq
    rcases List.mem_cons.1 hq with h1 | h2
    · subst h1
      rw [List.getD_eq_getElem?_getD, List.getElem?_append_right (le_refl _),
        Nat.sub_self]
      simp
    · have hlen : pre.length + 1 = (pre ++ [a]).length := by simp
      rw [hlen] at h2
      have := ih (pre ++ [a]) q h2
      rw [List.append_assoc] at this
      simpa using this

theorem enumerate_zero_getD {α : Type} (d : α) (l : List α) (q : ℕ × α)
    (hq : q ∈ enumerate 0 l) : l.getD q.1 d = q.2 := by
  have := enumerate_mem_getD d l ([] : List α) q hq
  simpa using this

/-- Claim C10: in every successful call, every onset row recorded for step 0
of an event train has jitter 0, and its position is exactly the scheduled
start offset of that train (jitter is drawn only when advancing between
steps, lines 385-389). -/
theorem C10_step0_no_jitter {σ : Type} (R : RngImpl σ)
    (hashFn : List (List Frac) → ℕ) (rng0 : σ) (data : List (List Frac))
    (insertData : List (List (List Frac))) (insertLabels : List ℕ)
    (sequence : List ℕ) (nEvents lag jitter nSteps : ℕ)
    (dist : EventDistribution)
    (out : List ℕ × List (List Frac) × List EventRow)
    (h : insertEventsAux R hashFn rng0 data insertData insertLabels sequence
      nEvents lag jitter nSteps dist = .ok out)
    (r : EventRow) (hr : r ∈ out.2.2) (h0 : r.step = 0) :
    r.jitter = 0 ∧ r.pos = ((out.1.getD r.idx 0 : ℕ) : ℤ) := by
  rw [insertEventsAux] at h
  split at h
  · cases h
  · split at h
    · cases h
    · try dsimp only at h
      split at h
      · cases h
      · try dsimp only at h
        split at h
        · cases h
        · try dsimp only at h
          split at h
          · cases h
          · rename_i ires hloop
            cases h
            exact insertLoop_rows R _ _ _ _ _ _ _ _ _ _ _ _ hloop
              (fun r2 hr2 => absurd hr2 (List.not_mem_nil r2))
              (fun q hq => enumerate_zero_getD 0 _ q hq) r hr h0

/-- Witness for C8: the concrete run on a 6-sample, 1-channel series keeps
its shape. -/
theorem C8_witness :
    shapeEq [[1], [1], [0], [0], [0], [0]] testData :=
  C8_shape_preserved testRng (fun _ => 0) 0 testData [[[1]]] [0] [0, 0]
    1 1 0 1 .constant [[1], [1], [0], [0], [0], [0]]
    [⟨0, 0, 0, 0, 1, 0⟩, ⟨0, 1, 1, 0, 1, 0⟩] (by decide)

/-- The RNG used by the C10 witness: every jitter draw returns `1`, so later
steps of the train really are jittered. -/
def jitterRng : RngImpl ℕ :=
  ⟨fun _ => 0, fun s _ => (0, s + 1), fun s _ => (0, s + 1),
   fun s _ _ => (1, s + 1)⟩

/-- Witness for C10 on a concrete run with `jitter = 1`: the step-0 row of
the single train carries zero jitter and sits at the scheduled start 0,
while the step-1 row is jittered. -/
theorem C10_witness :
    (⟨0, 0, 0, 0, 1, 0⟩ : EventRow).jitter = 0 ∧
    (⟨0, 0, 0, 0, 1, 0⟩ : EventRow).pos =
      ((([0] : List ℕ).getD (⟨0, 0, 0, 0, 1, 0⟩ : EventRow).idx 0 : ℕ) : ℤ) :=
  C10_step0_no_jitter jitterRng (fun _ => 0) 0 testData [[[1]]] [0] [0, 0]
    1 1 1 1 .constant
    ([0], [[1], [0], [1], [0], [0], [0]], [⟨0, 0, 0, 0, 1, 0⟩, ⟨0, 2, 1, 0, 1, 1⟩])
    (by decide) ⟨0, 0, 0, 0, 1, 0⟩ (by decide) rfl
